import Mathlib

/-!
Verification development for the wallet storage core of `src/Core/Wallet.cpp`
(bytecoin). Byte strings are modelled as `List Nat` (each entry one byte);
machine integers are `Nat` with explicit `% 2 ^ w` where truncation happens in
the source. External crypto primitives (cn_fast_hash, chacha keystream,
secret_key_to_public_key, key validation) are out of scope of the repository
and are taken as explicit function parameters; the stream-cipher structure of
chacha (ciphertext = plaintext XOR keystream) is the only fact about them the
code relies on and is modelled directly.
-/

namespace WalletCpp

/-- Little-endian encoding of `v` into `n` bytes, as `common::uint_le_to_bytes`
(the loop writes `v & 0xFF` and shifts `v` right by 8, `n` times). -/
def uintLeToBytes : Nat → Nat → List Nat
  | 0, _ => []
  | n + 1, v => v % 256 :: uintLeToBytes n (v / 256)

/-- Little-endian decoding of the first `n` bytes of `l`, as
`common::uint_le_from_bytes` (missing bytes read as 0). -/
def uintLeFromBytes : List Nat → Nat → Nat
  | _, 0 => 0
  | [], _ + 1 => 0
  | b :: rest, n + 1 => uintLeFromBytes rest n * 256 + b

theorem uintLeToBytes_length (n v : Nat) : (uintLeToBytes n v).length = n := by
  induction n generalizing v with
  | zero => rfl
  | succ m ih => simp [uintLeToBytes, ih]

theorem uintLeFromBytes_zero (l : List Nat) : uintLeFromBytes l 0 = 0 := by
  cases l <;> rfl

theorem uintLeFromBytes_toBytes (n v : Nat) :
    uintLeFromBytes (uintLeToBytes n v) n = v % 256 ^ n := by
  induction n generalizing v with
  | zero => simp [uintLeToBytes, uintLeFromBytes, Nat.mod_one]
  | succ m ih =>
    have hpow : (256 : Nat) ^ (m + 1) = 256 * 256 ^ m := by ring
    rw [uintLeToBytes, uintLeFromBytes, ih, hpow, Nat.mod_mul]
    omega

theorem uintLeFromBytes_append (a : List Nat) (b : List Nat) (n : Nat)
    (h : a.length = n) : uintLeFromBytes (a ++ b) n = uintLeFromBytes a n := by
  induction a generalizing n with
  | nil =>
    simp at h; subst h
    rw [uintLeFromBytes_zero, uintLeFromBytes_zero]
  | cons x rest ih =>
    cases n with
    | zero => rw [uintLeFromBytes_zero, uintLeFromBytes_zero]
    | succ m =>
      simp only [List.cons_append, uintLeFromBytes]
      rw [show rest.append b = rest ++ b from rfl, ih m (by simpa using h)]

/-- XOR a byte list with a keystream starting at stream position `i`. This is
the action of `chacha(20, data, size, key, iv, out)`: chacha is a stream
cipher, so the output is the input XORed with the keystream determined by the
key (the nonce is the fixed `chacha_iv{}` = 0 and is absorbed into `ks`). -/
def xorStream (ks : Nat → Nat) : Nat → List Nat → List Nat
  | _, [] => []
  | i, b :: rest => (b ^^^ ks i) :: xorStream ks (i + 1) rest

theorem xorStream_length (ks : Nat → Nat) (i : Nat) (l : List Nat) :
    (xorStream ks i l).length = l.length := by
  induction l generalizing i with
  | nil => rfl
  | cons b rest ih => simp [xorStream, ih]

theorem xorStream_xorStream (ks : Nat → Nat) (i : Nat) (l : List Nat) :
    xorStream ks i (xorStream ks i l) = l := by
  induction l generalizing i with
  | nil => rfl
  | cons b rest ih =>
    simp only [xorStream, Nat.xor_cancel_right]
    rw [ih]

/-- The `while (actual_size < target) actual_size *= 2;` loop of
`WalletHD::encrypt_data`, with explicit fuel (the fuel used below always
suffices, see `growActual_ge`). -/
def growActual : Nat → Nat → Nat → Nat
  | 0, _, cur => cur
  | fuel + 1, target, cur => if cur < target then growActual fuel target (cur * 2) else cur

theorem growActual_ge (fuel target cur : Nat) (hc : 1 ≤ cur)
    (hf : target ≤ cur + fuel) : target ≤ growActual fuel target cur := by
  induction fuel generalizing cur with
  | zero => simpa [growActual] using hf
  | succ m ih =>
    rw [growActual]
    by_cases h : cur < target
    · rw [if_pos h]
      exact ih (cur * 2) (by omega) (by omega)
    · rw [if_neg h]; omega

theorem growActual_pow2 (fuel target cur : Nat) (h : ∃ j, cur = 2 ^ j) :
    ∃ k, growActual fuel target cur = 2 ^ k := by
  induction fuel generalizing cur with
  | zero => exact h
  | succ m ih =>
    rw [growActual]
    by_cases hlt : cur < target
    · rw [if_pos hlt]
      rcases h with ⟨j, hj⟩
      exact ih (cur * 2) ⟨j + 1, by rw [hj]; ring⟩
    · rw [if_neg hlt]; exact h

namespace WalletHD

/-- Size of the padded-and-encrypted blob produced by `WalletHD::encrypt_data`
for a payload of `dataLen` bytes: the smallest power of two that is at least
`max (dataLen + EXTRA_SIZE) MIN_SIZE`, where `EXTRA_SIZE = sizeof(Hash) + 4 =
36` and `MIN_SIZE = 256`. -/
def actualSize (dataLen : Nat) : Nat :=
  growActual (max (dataLen + 36) 256) (max (dataLen + 36) 256) 1

theorem actualSize_ge (dataLen : Nat) : max (dataLen + 36) 256 ≤ actualSize dataLen :=
  growActual_ge _ _ 1 (by omega) (by omega)

theorem actualSize_pow2 (dataLen : Nat) : ∃ k, actualSize dataLen = 2 ^ k :=
  growActual_pow2 _ _ 1 ⟨0, rfl⟩

theorem actualSize_ge_data (dataLen : Nat) : dataLen + 36 ≤ actualSize dataLen :=
  le_trans (le_max_left _ _) (actualSize_ge dataLen)

theorem actualSize_ge_256 (dataLen : Nat) : 256 ≤ actualSize dataLen :=
  le_trans (le_max_right _ _) (actualSize_ge dataLen)

/-- Model of `WalletHD::encrypt_data(wallet_key, data)`. `hash` stands for
`crypto::cn_fast_hash` (the per-row chacha key is the hash of
`wallet_key ‖ iv`), `ks` for the chacha20 keystream of a given key, and `iv`
for the 32-byte value drawn by `crypto::rand<Hash>()`, passed explicitly. The
plaintext buffer `large_data` of `actual_size - 32` zeroed bytes receives the
4-byte little-endian payload length and then the payload; the result is
`iv ‖ chacha20(large_data)`. -/
def encrypt_data (hash : List Nat → List Nat) (ks : List Nat → Nat → Nat)
    (iv walletKey data : List Nat) : List Nat :=
  let largeData := uintLeToBytes 4 data.length ++ data ++
    List.replicate (actualSize data.length - 32 - (4 + data.length)) 0
  let key := hash (walletKey ++ iv)
  iv ++ xorStream (ks key) 0 largeData

/-- Model of `WalletHD::decrypt_data(wallet_key, value_data, value_size)`.
The two C++ `invariant(...)` checks abort decryption; they are modelled as
`none`. The first 32 bytes are the row iv, the rest is chacha20-decrypted with
the key `cn_fast_hash(wallet_key ‖ iv)`, the first 4 plaintext bytes give the
payload length, and exactly that many following bytes are returned. -/
def decrypt_data (hash : List Nat → List Nat) (ks : List Nat → Nat → Nat)
    (walletKey value : List Nat) : Option (List Nat) :=
  if value.length < 4 + 32 then none
  else
    let iv := value.take 32
    let key := hash (walletKey ++ iv)
    let result := xorStream (ks key) 0 (value.drop 32)
    let realSize := uintLeFromBytes result 4
    if realSize ≤ result.length - 4 then some ((result.drop 4).take realSize)
    else none

end WalletHD

theorem WalletHD.largeData_length (data : List Nat) :
    (uintLeToBytes 4 data.length ++ data ++
      List.replicate (WalletHD.actualSize data.length - 32 - (4 + data.length)) 0).length =
    WalletHD.actualSize data.length - 32 := by
  have hA1 := WalletHD.actualSize_ge_data data.length
  rw [List.length_append, List.length_append, uintLeToBytes_length,
    List.length_replicate]
  omega

theorem WalletHD.encrypt_data_length (hash : List Nat → List Nat)
    (ks : List Nat → Nat → Nat) (iv walletKey data : List Nat)
    (hiv : iv.length = 32) :
    (WalletHD.encrypt_data hash ks iv walletKey data).length =
      WalletHD.actualSize data.length := by
  have hA1 := WalletHD.actualSize_ge_data data.length
  have hA2 := WalletHD.actualSize_ge_256 data.length
  unfold WalletHD.encrypt_data
  simp only [List.length_append, xorStream_length, hiv, uintLeToBytes_length,
    List.length_replicate]
  omega

theorem WalletHD.decrypt_encrypt (hash : List Nat → List Nat)
    (ks : List Nat → Nat → Nat) (iv walletKey data : List Nat)
    (hiv : iv.length = 32) (hd : data.length ≤ 2 ^ 31) :
    WalletHD.decrypt_data hash ks walletKey
      (WalletHD.encrypt_data hash ks iv walletKey data) = some data := by
  have hA1 := WalletHD.actualSize_ge_data data.length
  have hA2 := WalletHD.actualSize_ge_256 data.length
  have hLD := WalletHD.largeData_length data
  have htb : (uintLeToBytes 4 data.length).length = 4 := uintLeToBytes_length 4 _
  unfold WalletHD.encrypt_data WalletHD.decrypt_data
  simp only []
  have hvlen : (iv ++ xorStream (ks (hash (walletKey ++ iv))) 0
      (uintLeToBytes 4 data.length ++ data ++
        List.replicate (WalletHD.actualSize data.length - 32 - (4 + data.length)) 0)).length =
      WalletHD.actualSize data.length := by
    simp only [List.length_append, xorStream_length, hiv, hLD]
    omega
  rw [if_neg (by omega)]
  rw [List.take_left' hiv, List.drop_left' hiv, xorStream_xorStream]
  have hreal : uintLeFromBytes
      (uintLeToBytes 4 data.length ++ data ++
        List.replicate (WalletHD.actualSize data.length - 32 - (4 + data.length)) 0) 4 =
      data.length := by
    rw [List.append_assoc, uintLeFromBytes_append _ _ 4 htb, uintLeFromBytes_toBytes]
    exact Nat.mod_eq_of_lt (by norm_num at hd ⊢; omega)
  rw [hreal, if_pos (by omega)]
  rw [List.append_assoc, List.drop_left' htb, List.take_left' rfl]

/-- Trivial instantiation of the abstract `cn_fast_hash`: constant 32-byte
output. Used to evaluate the model on concrete inputs. -/
def hash0 : List Nat → List Nat := fun _ => List.replicate 32 0

/-- Trivial instantiation of the abstract chacha keystream: all-zero stream. -/
def ks0 : List Nat → Nat → Nat := fun _ _ => 0

/-- A concrete 32-byte iv. -/
def iv0 : List Nat := List.replicate 32 0

/-- C1, counterexample. The claim states that the length of
`encrypt_data(wallet_key, plain)` is "a power of two plus 32"; but on the
empty payload the blob is exactly 256 bytes long, and 256 is not of the form
`2 ^ k + 32` (the blob length is `actual_size` itself: 32 bytes of iv plus
`actual_size - 32` bytes of ciphertext). -/
theorem c1_counterexample :
    (WalletHD.encrypt_data hash0 ks0 iv0 [] []).length = 256 ∧
      ∀ k : Nat, 2 ^ k + 32 ≠ 256 := by
  constructor
  · rw [WalletHD.encrypt_data_length hash0 ks0 iv0 [] [] (by rfl)]
    rfl
  · intro k h
    have h224 : 2 ^ k = 224 := by omega
    rcases le_or_lt k 7 with hk | hk
    · have : 2 ^ k ≤ 2 ^ 7 := Nat.pow_le_pow_right (by norm_num) hk
      norm_num at this; omega
    · have : 2 ^ 8 ≤ 2 ^ k := Nat.pow_le_pow_right (by norm_num) hk
      norm_num at this; omega

/-- C1, amended. For every byte string `plain` of length up to `2^31`,
`WalletHD::decrypt_data(wallet_key, WalletHD::encrypt_data(wallet_key, plain))`
returns exactly `plain`, and the length of the encrypted blob is at least 256
and is a power of two (not "a power of two plus 32": the 32-byte iv is part of
the power-of-two total). Quantified over the hash and keystream primitives and
over the random 32-byte row iv. -/
theorem c1_encrypt_decrypt_roundtrip (hash : List Nat → List Nat)
    (ks : List Nat → Nat → Nat) (iv walletKey plain : List Nat)
    (hiv : iv.length = 32) (hlen : plain.length ≤ 2 ^ 31) :
    WalletHD.decrypt_data hash ks walletKey
        (WalletHD.encrypt_data hash ks iv walletKey plain) = some plain ∧
      256 ≤ (WalletHD.encrypt_data hash ks iv walletKey plain).length ∧
      ∃ k, (WalletHD.encrypt_data hash ks iv walletKey plain).length = 2 ^ k := by
  refine ⟨WalletHD.decrypt_encrypt hash ks iv walletKey plain hiv hlen, ?_, ?_⟩
  · rw [WalletHD.encrypt_data_length hash ks iv walletKey plain hiv]
    exact WalletHD.actualSize_ge_256 plain.length
  · rw [WalletHD.encrypt_data_length hash ks iv walletKey plain hiv]
    exact WalletHD.actualSize_pow2 plain.length

/-- C1, witness: the amended round-trip theorem applied at a concrete payload
`[1, 2, 3]` with the trivial crypto instantiation. -/
theorem c1_witness :
    WalletHD.decrypt_data hash0 ks0 []
        (WalletHD.encrypt_data hash0 ks0 iv0 [] [1, 2, 3]) = some [1, 2, 3] ∧
      256 ≤ (WalletHD.encrypt_data hash0 ks0 iv0 [] [1, 2, 3]).length ∧
      ∃ k, (WalletHD.encrypt_data hash0 ks0 iv0 [] [1, 2, 3]).length = 2 ^ k :=
  c1_encrypt_decrypt_roundtrip hash0 ks0 iv0 [] [1, 2, 3] (by decide)
    (by norm_num)

/-- One wallet record (`struct WalletRecord`): spend key pair plus creation
timestamp. Keys are 32-byte strings. -/
structure WalletRecord where
  spend_public_key : List Nat
  spend_secret_key : List Nat
  creation_timestamp : Nat
deriving DecidableEq, Inhabited

/-- The all-zero 32-byte key, `SecretKey{}` / `PublicKey{}`. -/
def zeroKey : List Nat := List.replicate 32 0

/-- Modelled from the spec: `Timestamp` is a 32-bit unsigned integer type
(`decrypt_key_pair` narrows the on-disk u64 field with a
`static_cast<Timestamp>`; the typedef itself lives outside the given
sources). `TIMESTAMP_MAX` is `std::numeric_limits<Timestamp>::max()`; the
spec notes `MAX` means "never rescan". It is also the fresh-object member
initializer of `m_oldest_timestamp` (in `Wallet.hpp`, outside the given
sources), as required by the spec invariant "`m_oldest_timestamp == min over
records of creation_timestamp` after load". -/
def TIMESTAMP_MAX : Nat := 2 ^ 32 - 1

/-- The external crypto primitives used by the container load path, taken as
parameters: `chacha8 key iv data` is the chacha8 decryption of `data`,
`keysMatch` is `crypto::keys_match` (does the secret key generate the public
key), `keyIsValid` is `crypto::key_isvalid`. -/
structure CryptoModel where
  chacha8 : List Nat → List Nat → List Nat → List Nat
  keysMatch : List Nat → List Nat → Bool
  keyIsValid : List Nat → Bool

/-- Model of the static `decrypt_key_pair`: chacha8-decrypt the 72-byte
record body, split it as `public_key(32) ‖ secret_key(32) ‖ timestamp(u64
LE)`, and narrow the timestamp to `Timestamp` (32 bits). -/
def decrypt_key_pair (chacha8fn : List Nat → List Nat → List Nat → List Nat)
    (key iv data : List Nat) : WalletRecord :=
  let recData := chacha8fn key iv data
  { spend_public_key := recData.take 32
    spend_secret_key := (recData.drop 32).take 32
    creation_timestamp := uintLeFromBytes (recData.drop 64) 8 % 2 ^ 32 }

/-- Lookup in the `spend_public_key → index` map (`m_records_map.find`). -/
def mapLookup (m : List (List Nat × Nat)) (k : List Nat) : Option Nat :=
  (m.find? (fun p => p.1 == k)).map (fun p => p.2)

/-- Insertion into the records map. `std::unordered_map::insert` keeps the
existing entry when the key is already present. -/
def mapInsert (m : List (List Nat × Nat)) (k : List Nat) (v : Nat) :
    List (List Nat × Nat) :=
  if (mapLookup m k).isSome then m else (k, v) :: m

/-- In-memory state of a `WalletContainerStorage` object: view key pair,
records vector, records map, oldest timestamp, and the currency net (from
`m_currency.net`). File handles and on-disk mirrors are abstracted away. -/
structure ContainerState where
  view_public_key : List Nat
  view_secret_key : List Nat
  wallet_records : List WalletRecord
  records_map : List (List Nat × Nat)
  oldest_timestamp : Nat
  net : String
deriving DecidableEq, Inhabited

/-- Errors surfaced by the load path (`api::WALLET_FILE_*`). -/
inductive WalletErr where
  | decryptError
  | readError
  | unknownVersion
deriving DecidableEq

/-- The decrypted record of chunk `i` of the record area (`all_encrypted[i]`,
an 80-byte `EncryptedWalletRecord`: 8-byte iv then 72-byte body). -/
def decryptChunk (cm : CryptoModel) (wk body : List Nat) (i : Nat) : WalletRecord :=
  let chunk := (body.drop (i * 80)).take 80
  decrypt_key_pair cm.chacha8 wk (chunk.take 8) ((chunk.drop 8).take 72)

/-- The record-processing loop of
`WalletContainerStorage::load_container_storage` (lines 197-223): per record,
decrypt; record 0 establishes `tracking_mode` and any later record
disagreeing with it raises `WALLET_FILE_DECRYPT_ERROR`; the first and last
`CHECK_KEYS_COUNT = 128` records get their keys verified; the oldest
timestamp is folded with `min`; the record is inserted into the map and
appended to the vector. `n` is the number of records still to process, `i`
the index of the next one. -/
def loadLoop (cm : CryptoModel) (wk : List Nat) (itemCount : Nat)
    (body : List Nat) :
    Nat → Nat → Bool → ContainerState → Except WalletErr ContainerState
  | 0, _, _, st => .ok st
  | n + 1, i, tracking, st =>
    let r := decryptChunk cm wk body i
    let tracking2 := if i = 0 then decide (r.spend_secret_key = zeroKey) else tracking
    if i ≠ 0 ∧ ((tracking = true ∧ r.spend_secret_key ≠ zeroKey) ∨
        (tracking = false ∧ r.spend_secret_key = zeroKey)) then
      .error .decryptError
    else if (i < 128 ∨ itemCount ≤ i + 128) ∧
        ((r.spend_secret_key ≠ zeroKey ∧
            cm.keysMatch r.spend_secret_key r.spend_public_key = false) ∨
          (r.spend_secret_key = zeroKey ∧
            cm.keyIsValid r.spend_public_key = false)) then
      .error .decryptError
    else
      loadLoop cm wk itemCount body n (i + 1) tracking2
        { st with
          oldest_timestamp := min st.oldest_timestamp r.creation_timestamp
          records_map := mapInsert st.records_map r.spend_public_key
            st.wallet_records.length
          wallet_records := st.wallet_records ++ [r] }

/-- Model of `WalletContainerStorage::load_container_storage`, reading a V2
container file given as a byte list. Layout: version byte, 88-byte
`ContainerStoragePrefix` (8-byte `next_iv` then the 80-byte encrypted
view-key record), `item_capacity` u64 LE, `item_count` u64 LE, then the
encrypted records. Short reads throw (`readError` here); the window check
`i >= item_count - CHECK_KEYS_COUNT` is written `itemCount ≤ i + 128` (for
`itemCount < 128` the C++ `size_t` subtraction wraps and the disjunct is
false, but `i < 128` already holds then, so the disjunction agrees).
`size_t` is 64-bit, so `integer_cast<size_t>` of the min is the identity and
the overflow guard compares against `SIZE_MAX / sizeof(EncryptedWalletRecord)
= (2^64 - 1) / 80`. -/
def load_container_storage (cm : CryptoModel) (wk : List Nat) (net : String)
    (file : List Nat) : Except WalletErr ContainerState :=
  if file.length < 105 then .error .readError
  else
    let version := file.getD 0 0
    let fItemCapacity := uintLeFromBytes ((file.drop 89).take 8) 8
    let fItemCount := uintLeFromBytes ((file.drop 97).take 8) 8
    if version < 6 then .error .decryptError
    else
      let hdr := (file.drop 1).take 88
      let vk := decrypt_key_pair cm.chacha8 wk ((hdr.drop 8).take 8)
        ((hdr.drop 16).take 72)
      if cm.keysMatch vk.spend_secret_key vk.spend_public_key = false then
        .error .decryptError
      else
        let itemCount := min fItemCount fItemCapacity
        if (2 ^ 64 - 1) / 80 < itemCount then .error .decryptError
        else if file.length < 105 + itemCount * 80 then .error .readError
        else
          loadLoop cm wk itemCount ((file.drop 105).take (itemCount * 80))
            itemCount 0 false
            { view_public_key := vk.spend_public_key
              view_secret_key := vk.spend_secret_key
              wallet_records := []
              records_map := []
              oldest_timestamp := TIMESTAMP_MAX
              net := net }

theorem loadLoop_ok_length (cm : CryptoModel) (wk : List Nat) (ic : Nat)
    (body : List Nat) :
    ∀ (n i : Nat) (t : Bool) (st st' : ContainerState),
      loadLoop cm wk ic body n i t st = .ok st' →
      st'.wallet_records.length = st.wallet_records.length + n := by
  intro n
  induction n with
  | zero =>
    intro i t st st' h
    simp only [loadLoop, Except.ok.injEq] at h
    rw [← h]
    omega
  | succ m ih =>
    intro i t st st' h
    simp only [loadLoop] at h
    split_ifs at h <;>
      first
      | exact Except.noConfusion h
      | (have hlen := ih (i + 1) _ _ _ h
         simp only [List.length_append, List.length_cons, List.length_nil] at hlen
         omega)

theorem loadLoop_ok_mem_mono (cm : CryptoModel) (wk : List Nat) (ic : Nat)
    (body : List Nat) :
    ∀ (n i : Nat) (t : Bool) (st st' : ContainerState),
      loadLoop cm wk ic body n i t st = .ok st' →
      ∀ r ∈ st.wallet_records, r ∈ st'.wallet_records := by
  intro n
  induction n with
  | zero =>
    intro i t st st' h
    simp only [loadLoop, Except.ok.injEq] at h
    rw [← h]; exact fun r hr => hr
  | succ m ih =>
    intro i t st st' h
    simp only [loadLoop] at h
    split_ifs at h <;>
      first
      | exact Except.noConfusion h
      | exact fun r hr => ih (i + 1) _ _ _ h r (by simp [hr])

theorem loadLoop_ok_oldest_le (cm : CryptoModel) (wk : List Nat) (ic : Nat)
    (body : List Nat) :
    ∀ (n i : Nat) (t : Bool) (st st' : ContainerState),
      loadLoop cm wk ic body n i t st = .ok st' →
      st'.oldest_timestamp ≤ st.oldest_timestamp := by
  intro n
  induction n with
  | zero =>
    intro i t st st' h
    simp only [loadLoop, Except.ok.injEq] at h
    rw [← h]
  | succ m ih =>
    intro i t st st' h
    simp only [loadLoop] at h
    split_ifs at h <;>
      first
      | exact Except.noConfusion h
      | (have hle := ih (i + 1) _ _ _ h
         simp only at hle
         exact le_trans hle (min_le_left _ _))

theorem loadLoop_ok_oldest_le_ct (cm : CryptoModel) (wk : List Nat) (ic : Nat)
    (body : List Nat) :
    ∀ (n i : Nat) (t : Bool) (st st' : ContainerState),
      loadLoop cm wk ic body n i t st = .ok st' →
      ∀ r ∈ st'.wallet_records,
        r ∈ st.wallet_records ∨ st'.oldest_timestamp ≤ r.creation_timestamp := by
  intro n
  induction n with
  | zero =>
    intro i t st st' h r hr
    simp only [loadLoop, Except.ok.injEq] at h
    subst h; exact Or.inl hr
  | succ m ih =>
    intro i t st st' h r hr
    simp only [loadLoop] at h
    split_ifs at h <;>
      first
      | exact Except.noConfusion h
      | (have hle := loadLoop_ok_oldest_le cm wk ic body m (i + 1) _ _ _ h
         simp only at hle
         rcases ih (i + 1) _ _ _ h r hr with hmem | hct
         · simp only [List.mem_append, List.mem_cons, List.not_mem_nil,
             or_false] at hmem
           rcases hmem with hold | hnew
           · exact Or.inl hold
           · exact Or.inr (by rw [hnew]; exact le_trans hle (min_le_right _ _))
         · exact Or.inr hct)

theorem loadLoop_ok_oldest_attained (cm : CryptoModel) (wk : List Nat)
    (ic : Nat) (body : List Nat) :
    ∀ (n i : Nat) (t : Bool) (st st' : ContainerState),
      loadLoop cm wk ic body n i t st = .ok st' →
      st'.oldest_timestamp = st.oldest_timestamp ∨
        ∃ r ∈ st'.wallet_records, st'.oldest_timestamp = r.creation_timestamp := by
  intro n
  induction n with
  | zero =>
    intro i t st st' h
    simp only [loadLoop, Except.ok.injEq] at h
    subst h; exact Or.inl rfl
  | succ m ih =>
    intro i t st st' h
    simp only [loadLoop] at h
    split_ifs at h <;>
      first
      | exact Except.noConfusion h
      | (rcases ih (i + 1) _ _ _ h with heq | hex
         · simp only at heq
           rcases le_or_lt st.oldest_timestamp
               (decryptChunk cm wk body i).creation_timestamp with hle | hlt
           · exact Or.inl (by rw [heq]; exact min_eq_left hle)
           · refine Or.inr ⟨decryptChunk cm wk body i, ?_, ?_⟩
             · exact loadLoop_ok_mem_mono cm wk ic body m (i + 1) _ _ _ h _
                 (by simp)
             · rw [heq]; exact min_eq_right (le_of_lt hlt)
         · exact Or.inr hex)

theorem decrypt_key_pair_ct_le (f : List Nat → List Nat → List Nat → List Nat)
    (key iv data : List Nat) :
    (decrypt_key_pair f key iv data).creation_timestamp ≤ TIMESTAMP_MAX := by
  unfold decrypt_key_pair TIMESTAMP_MAX
  simp only
  have := Nat.mod_lt (uintLeFromBytes ((f key iv data).drop 64) 8)
    (show 0 < 2 ^ 32 by norm_num)
  omega

theorem loadLoop_ok_ct_bound (cm : CryptoModel) (wk : List Nat) (ic : Nat)
    (body : List Nat) :
    ∀ (n i : Nat) (t : Bool) (st st' : ContainerState),
      loadLoop cm wk ic body n i t st = .ok st' →
      ∀ r ∈ st'.wallet_records,
        r ∈ st.wallet_records ∨ r.creation_timestamp ≤ TIMESTAMP_MAX := by
  intro n
  induction n with
  | zero =>
    intro i t st st' h r hr
    simp only [loadLoop, Except.ok.injEq] at h
    subst h; exact Or.inl hr
  | succ m ih =>
    intro i t st st' h r hr
    simp only [loadLoop] at h
    split_ifs at h <;>
      first
      | exact Except.noConfusion h
      | (rcases ih (i + 1) _ _ _ h r hr with hmem | hct
         · simp only [List.mem_append, List.mem_cons, List.not_mem_nil,
             or_false] at hmem
           rcases hmem with hold | hnew
           · exact Or.inl hold
           · exact Or.inr (by rw [hnew]; exact decrypt_key_pair_ct_le _ _ _ _)
         · exact Or.inr hct)

theorem loadLoop_ok_tracking (cm : CryptoModel) (wk : List Nat) (ic : Nat)
    (body : List Nat) :
    ∀ (n i : Nat) (t : Bool) (st st' : ContainerState),
      loadLoop cm wk ic body n i t st = .ok st' → 1 ≤ i →
      (∀ r ∈ st.wallet_records,
        (t = true → r.spend_secret_key = zeroKey) ∧
        (t = false → r.spend_secret_key ≠ zeroKey)) →
      ∀ r ∈ st'.wallet_records,
        (t = true → r.spend_secret_key = zeroKey) ∧
        (t = false → r.spend_secret_key ≠ zeroKey) := by
  intro n
  induction n with
  | zero =>
    intro i t st st' h hi hinv
    simp only [loadLoop, Except.ok.injEq] at h
    subst h; exact hinv
  | succ m ih =>
    intro i t st st' h hi hinv
    simp only [loadLoop] at h
    rw [if_neg (show ¬i = 0 by omega)] at h
    by_cases hc1 : i ≠ 0 ∧
        ((t = true ∧ (decryptChunk cm wk body i).spend_secret_key ≠ zeroKey) ∨
          (t = false ∧ (decryptChunk cm wk body i).spend_secret_key = zeroKey))
    · rw [if_pos hc1] at h
      exact Except.noConfusion h
    · rw [if_neg hc1] at h
      split_ifs at h <;>
        first
        | exact Except.noConfusion h
        | (refine ih (i + 1) t _ _ h (by omega) ?_
           intro r2 hr2
           simp only [List.mem_append, List.mem_cons, List.not_mem_nil,
             or_false] at hr2
           rcases hr2 with hold | hnew
           · exact hinv r2 hold
           · subst hnew
             constructor
             · intro ht
               by_contra hne
               exact hc1 ⟨by omega, Or.inl ⟨ht, hne⟩⟩
             · intro hf heq
               exact hc1 ⟨by omega, Or.inr ⟨hf, heq⟩⟩)

theorem loadLoop_ok_homog (cm : CryptoModel) (wk : List Nat) (ic : Nat)
    (body : List Nat) (n : Nat) (t : Bool) (st0 st' : ContainerState)
    (hrec : st0.wallet_records = [])
    (h : loadLoop cm wk ic body n 0 t st0 = .ok st') :
    (∀ r ∈ st'.wallet_records, r.spend_secret_key = zeroKey) ∨
      (∀ r ∈ st'.wallet_records, r.spend_secret_key ≠ zeroKey) := by
  cases n with
  | zero =>
    simp only [loadLoop, Except.ok.injEq] at h
    subst h
    exact Or.inl (fun r hr => absurd hr (by simp [hrec]))
  | succ m =>
    simp only [loadLoop] at h
    split_ifs at h <;>
      first
      | exact Except.noConfusion h
      | (by_cases hz : (decryptChunk cm wk body 0).spend_secret_key = zeroKey
         · left
           intro r hr
           refine (loadLoop_ok_tracking cm wk ic body m 1 _ _ _ h (by omega)
             ?_ r hr).1 (by simp [hz])
           intro r2 hr2
           simp only [hrec, List.nil_append, List.mem_cons, List.not_mem_nil,
             or_false] at hr2
           subst hr2
           exact ⟨fun _ => hz, fun hf => by simp [hz] at hf⟩
         · right
           intro r hr
           refine (loadLoop_ok_tracking cm wk ic body m 1 _ _ _ h (by omega)
             ?_ r hr).2 (by simp [hz])
           intro r2 hr2
           simp only [hrec, List.nil_append, List.mem_cons, List.not_mem_nil,
             or_false] at hr2
           subst hr2
           exact ⟨fun ht => by simp [hz] at ht, fun _ => hz⟩)

/-- C5: on a successful V2 container load, the number of records read and
kept equals `min(file_item_count, file_item_capacity)` — the two u64 fields
read little-endian at offsets 97 and 89 of the file. -/
theorem c5_load_item_count (cm : CryptoModel) (wk : List Nat) (net : String)
    (file : List Nat) (st : ContainerState)
    (h : load_container_storage cm wk net file = .ok st) :
    st.wallet_records.length =
      min (uintLeFromBytes ((file.drop 97).take 8) 8)
        (uintLeFromBytes ((file.drop 89).take 8) 8) := by
  simp only [load_container_storage] at h
  split_ifs at h <;> try exact Except.noConfusion h
  have hlen := loadLoop_ok_length cm wk _ _ _ 0 false _ _ h
  simpa using hlen

/-- C7: a successful container load yields records that are all tracking
(zero spend secret) or all non-tracking — record 0 fixes the mode — and any
later record disagreeing with the established mode makes the record loop fail
with `WALLET_FILE_DECRYPT_ERROR`. -/
theorem c7_tracking_homogeneous (cm : CryptoModel) (wk : List Nat)
    (net : String) (file : List Nat) (st : ContainerState)
    (h : load_container_storage cm wk net file = .ok st) :
    ((∀ r ∈ st.wallet_records, r.spend_secret_key = zeroKey) ∨
      (∀ r ∈ st.wallet_records, r.spend_secret_key ≠ zeroKey)) ∧
    (∀ (ic2 n i : Nat) (body2 : List Nat) (t : Bool) (s : ContainerState),
      1 ≤ i →
      ((t = true ∧ (decryptChunk cm wk body2 i).spend_secret_key ≠ zeroKey) ∨
        (t = false ∧ (decryptChunk cm wk body2 i).spend_secret_key = zeroKey)) →
      loadLoop cm wk ic2 body2 (n + 1) i t s = Except.error .decryptError) := by
  constructor
  · simp only [load_container_storage] at h
    split_ifs at h <;> try exact Except.noConfusion h
    exact loadLoop_ok_homog cm wk _ _ _ false _ _ rfl h
  · intro ic2 n i body2 t s hi hmis
    simp only [loadLoop]
    rw [if_neg (show ¬i = 0 by omega), if_pos ⟨by omega, hmis⟩]

deriving instance DecidableEq for Except

/-- Trivial concrete crypto model: chacha8 is the identity on the data (a
legal keystream instantiation), key checks always pass. -/
def cm0 : CryptoModel :=
  { chacha8 := fun _ _ data => data
    keysMatch := fun _ _ => true
    keyIsValid := fun _ => true }

/-- A concrete V2 container file: version 6, zeroed header,
`item_capacity = 1`, `item_count = 2`, one zeroed record. -/
def file5 : List Nat :=
  [6] ++ List.replicate 88 0 ++ uintLeToBytes 8 1 ++ uintLeToBytes 8 2 ++
    List.replicate 80 0

/-- The state produced by loading `file5` under `cm0`. -/
def st5 : ContainerState :=
  { view_public_key := zeroKey
    view_secret_key := zeroKey
    wallet_records := [⟨zeroKey, zeroKey, 0⟩]
    records_map := [(zeroKey, 0)]
    oldest_timestamp := 0
    net := "main" }

/-- The all-one 32-byte key (a nonzero spend secret). -/
def oneKey : List Nat := List.replicate 32 1

/-- An 80-byte encrypted record whose plaintext under `cm0` has a zero public
key, the all-one secret key, and timestamp 0. -/
def chunk7 : List Nat :=
  List.replicate 40 0 ++ List.replicate 32 1 ++ List.replicate 8 0

/-- A concrete V2 container file with two identical non-tracking records. -/
def file7 : List Nat :=
  [6] ++ List.replicate 88 0 ++ uintLeToBytes 8 2 ++ uintLeToBytes 8 2 ++
    chunk7 ++ chunk7

/-- The state produced by loading `file7` under `cm0`. -/
def st7 : ContainerState :=
  { view_public_key := zeroKey
    view_secret_key := zeroKey
    wallet_records := [⟨zeroKey, oneKey, 0⟩, ⟨zeroKey, oneKey, 0⟩]
    records_map := [(zeroKey, 0)]
    oldest_timestamp := 0
    net := "main" }

set_option maxRecDepth 8000 in
/-- C5, witness: loading `file5` (capacity 1, count 2) succeeds and keeps
`min 2 1 = 1` record. -/
theorem c5_witness :
    st5.wallet_records.length =
      min (uintLeFromBytes ((file5.drop 97).take 8) 8)
        (uintLeFromBytes ((file5.drop 89).take 8) 8) :=
  c5_load_item_count cm0 [] "main" file5 st5 (by decide)

set_option maxRecDepth 8000 in
/-- C7, witness: the homogeneity theorem applied to the concrete load of
`file7` (both records non-tracking). -/
theorem c7_witness :
    ((∀ r ∈ st7.wallet_records, r.spend_secret_key = zeroKey) ∨
      (∀ r ∈ st7.wallet_records, r.spend_secret_key ≠ zeroKey)) ∧
    (∀ (ic2 n i : Nat) (body2 : List Nat) (t : Bool) (s : ContainerState),
      1 ≤ i →
      ((t = true ∧ (decryptChunk cm0 [] body2 i).spend_secret_key ≠ zeroKey) ∨
        (t = false ∧ (decryptChunk cm0 [] body2 i).spend_secret_key = zeroKey)) →
      loadLoop cm0 [] ic2 body2 (n + 1) i t s = Except.error .decryptError) :=
  c7_tracking_homogeneous cm0 [] "main" file7 st7 (by decide)

/-- Modelled from the spec: `Wallet::is_view_only()` ("true iff the first
record has no spend secret"); the accessor is defined in `Wallet.hpp`, which
is not part of the given sources. On an empty records vector the C++ `.at(0)`
would throw; all uses below have a nonempty vector. -/
def is_view_only (st : ContainerState) : Bool :=
  decide ((st.wallet_records.headD default).spend_secret_key = zeroKey)

/-- The `do { random_keypair } while (already in map)` loop of container
`generate_new_addresses`, drawing from an explicit finite supply of random
keypairs `(public, secret)`; `none` when the supply runs out. -/
def freshKeypair (m : List (List Nat × Nat)) :
    List (List Nat × List Nat) →
      Option ((List Nat × List Nat) × List (List Nat × List Nat))
  | [] => none
  | kp :: rest =>
    if (mapLookup m kp.1).isSome then freshKeypair m rest else some (kp, rest)

/-- One iteration of the `for (auto &&sk : sks)` loop of
`WalletContainerStorage::generate_new_addresses` (lines 447-478). The
accumulator carries the result vector, the wallet state, the
`*rescan_from_ct` flag and the remaining randomness supply. `toPub` is
`crypto::secret_key_to_public_key` (`none` = failure, which throws). For a
zero input secret a fresh random keypair is drawn with timestamp `now` and
`m_oldest_timestamp` is lowered; for a nonzero input the derived public key
with timestamp `ct` is used. If the public key is already mapped and the
stored timestamp is larger, the stored timestamp is lowered and the flag is
set; otherwise the stored record is returned unchanged. Unmapped records are
appended (the file append is abstracted away). -/
def WalletContainerStorage.generate_new_addresses_step
    (toPub : List Nat → Option (List Nat)) (ct now : Nat)
    (acc : List WalletRecord × ContainerState × Bool ×
      List (List Nat × List Nat)) (sk : List Nat) :
    Option (List WalletRecord × ContainerState × Bool ×
      List (List Nat × List Nat)) :=
  let (result, st, rescan, supply) := acc
  (if sk = zeroKey then
    (freshKeypair st.records_map supply).map (fun x =>
      (({ spend_public_key := x.1.1, spend_secret_key := x.1.2,
          creation_timestamp := now } : WalletRecord),
        { st with oldest_timestamp := min st.oldest_timestamp now }, x.2))
  else
    (toPub sk).map (fun pk =>
      ({ spend_public_key := pk, spend_secret_key := sk,
         creation_timestamp := ct }, st, supply))).bind
    (fun y =>
      let record := y.1
      let st2 := y.2.1
      let supply2 := y.2.2
      match mapLookup st2.records_map record.spend_public_key with
      | some i =>
        match st2.wallet_records.get? i with
        | none => none
        | some stored =>
          if stored.creation_timestamp > record.creation_timestamp then
            some (result ++ [{ stored with
                creation_timestamp := record.creation_timestamp }],
              { st2 with
                wallet_records := st2.wallet_records.set i { stored with
                  creation_timestamp := record.creation_timestamp }
                oldest_timestamp := min st2.oldest_timestamp
                  record.creation_timestamp },
              true, supply2)
          else some (result ++ [stored], st2, rescan, supply2)
      | none =>
        some (result ++ [record],
          { st2 with
            records_map := mapInsert st2.records_map record.spend_public_key
              st2.wallet_records.length
            wallet_records := st2.wallet_records ++ [record] },
          rescan, supply2))

/-- Model of `WalletContainerStorage::generate_new_addresses`. Throws
(`none`) on a view-only wallet; `*rescan_from_ct` starts `false`; each input
secret is processed by `generate_new_addresses_step`. The trailing
`save_and_check` and the in-place count rewrite only touch the file, which is
abstracted away. -/
def WalletContainerStorage.generate_new_addresses
    (toPub : List Nat → Option (List Nat)) (sks : List (List Nat))
    (ct now : Nat) (st : ContainerState)
    (supply : List (List Nat × List Nat)) :
    Option (List WalletRecord × ContainerState × Bool) :=
  if is_view_only st then none
  else
    (sks.foldlM (WalletContainerStorage.generate_new_addresses_step toPub ct
      now) ([], st, false, supply)).map (fun x => (x.1, x.2.1, x.2.2.1))

/-- Model of `WalletContainerStorage::on_first_output_found` (lines 515-527):
only on net `"main"`, only when the oldest timestamp is 0 (unknown) and
`ts ≠ 0`; then pins `m_oldest_timestamp` to `ts` and replaces every record
timestamp that is 0 (the re-save only touches the file). -/
def WalletContainerStorage.on_first_output_found (st : ContainerState)
    (ts : Nat) : ContainerState :=
  if st.net ≠ "main" then st
  else if ts = 0 ∨ st.oldest_timestamp ≠ 0 then st
  else
    { st with
      oldest_timestamp := ts
      wallet_records := st.wallet_records.map (fun r =>
        if r.creation_timestamp = 0 then { r with creation_timestamp := ts }
        else r) }

/-- C3: in container `generate_new_addresses`, an input secret whose derived
public key is already mapped lowers the stored record's timestamp and sets
`*rescan_from_ct` exactly when the stored timestamp is strictly larger than
the new one; otherwise record and flag are untouched. Stated on a
single-input call, which performs exactly one loop iteration. -/
theorem c3_existing_key_timestamp
    (toPub : List Nat → Option (List Nat)) (sk pk : List Nat) (ct now : Nat)
    (st : ContainerState) (supply : List (List Nat × List Nat)) (i : Nat)
    (r : WalletRecord)
    (hvo : is_view_only st = false) (hsk : sk ≠ zeroKey)
    (hpub : toPub sk = some pk)
    (hmap : mapLookup st.records_map pk = some i)
    (hget : st.wallet_records.get? i = some r) :
    (r.creation_timestamp > ct →
      WalletContainerStorage.generate_new_addresses toPub [sk] ct now st
          supply =
        some ([{ r with creation_timestamp := ct }],
          { st with
            wallet_records := st.wallet_records.set i
              { r with creation_timestamp := ct }
            oldest_timestamp := min st.oldest_timestamp ct },
          true)) ∧
    (¬r.creation_timestamp > ct →
      WalletContainerStorage.generate_new_addresses toPub [sk] ct now st
          supply =
        some ([r], st, false)) := by
  have hvo2 : ¬is_view_only st = true := by simp [hvo]
  constructor
  · intro hct
    simp only [WalletContainerStorage.generate_new_addresses,
      WalletContainerStorage.generate_new_addresses_step, List.foldlM_cons,
      List.foldlM_nil, if_neg hvo2, if_neg hsk, hpub, hmap, hget,
      Option.map_some', Option.bind_eq_bind, Option.some_bind,
      List.nil_append, Option.pure_def, if_pos hct]
  · intro hct
    simp only [WalletContainerStorage.generate_new_addresses,
      WalletContainerStorage.generate_new_addresses_step, List.foldlM_cons,
      List.foldlM_nil, if_neg hvo2, if_neg hsk, hpub, hmap, hget,
      Option.map_some', Option.bind_eq_bind, Option.some_bind,
      List.nil_append, Option.pure_def, if_neg hct]

/-- A concrete non-view-only container state with a single record whose
creation timestamp is 10. -/
def st3 : ContainerState :=
  { view_public_key := zeroKey
    view_secret_key := zeroKey
    wallet_records := [⟨zeroKey, oneKey, 10⟩]
    records_map := [(zeroKey, 0)]
    oldest_timestamp := 10
    net := "main" }

/-- Trivial `secret_key_to_public_key`: every secret maps to the zero point. -/
def toPub0 : List Nat → Option (List Nat) := fun _ => some zeroKey

/-- C3, witness: importing the secret `oneKey` (which derives the already
mapped public key) with new timestamp 5 against stored timestamp 10. -/
theorem c3_witness :
    ((⟨zeroKey, oneKey, 10⟩ : WalletRecord).creation_timestamp > 5 →
      WalletContainerStorage.generate_new_addresses toPub0 [oneKey] 5 7 st3
          [] =
        some ([{ (⟨zeroKey, oneKey, 10⟩ : WalletRecord) with
            creation_timestamp := 5 }],
          { st3 with
            wallet_records := st3.wallet_records.set 0
              { (⟨zeroKey, oneKey, 10⟩ : WalletRecord) with
                creation_timestamp := 5 }
            oldest_timestamp := min st3.oldest_timestamp 5 },
          true)) ∧
    (¬(⟨zeroKey, oneKey, 10⟩ : WalletRecord).creation_timestamp > 5 →
      WalletContainerStorage.generate_new_addresses toPub0 [oneKey] 5 7 st3
          [] =
        some ([⟨zeroKey, oneKey, 10⟩], st3, false)) :=
  c3_existing_key_timestamp toPub0 oneKey zeroKey 5 7 st3 [] 0
    ⟨zeroKey, oneKey, 10⟩ (by decide) (by decide) rfl (by decide) (by decide)

theorem generate_step_oldest_le (toPub : List Nat → Option (List Nat))
    (ct now : Nat) (sk : List Nat)
    (acc acc2 : List WalletRecord × ContainerState × Bool ×
      List (List Nat × List Nat))
    (h : WalletContainerStorage.generate_new_addresses_step toPub ct now acc
      sk = some acc2) :
    acc2.2.1.oldest_timestamp ≤ acc.2.1.oldest_timestamp := by
  obtain ⟨result, st, rescan, supply⟩ := acc
  simp only [WalletContainerStorage.generate_new_addresses_step] at h
  by_cases hz : sk = zeroKey
  · rw [if_pos hz] at h
    cases hfk : freshKeypair st.records_map supply with
    | none => rw [hfk] at h; simp at h
    | some x =>
      rw [hfk] at h
      simp only [Option.map_some', Option.some_bind] at h
      revert h
      split
      · split
        · intro h; exact absurd h (by simp)
        · split
          · intro h
            rw [← Option.some.injEq] at h
            simp only [Option.some.injEq] at h
            rw [← h]
            simp only
            exact le_trans (min_le_left _ _) (min_le_left _ _)
          · intro h
            simp only [Option.some.injEq] at h
            rw [← h]
            simp only
            exact min_le_left _ _
      · intro h
        simp only [Option.some.injEq] at h
        rw [← h]
        simp only
        exact min_le_left _ _
  · rw [if_neg hz] at h
    cases hp : toPub sk with
    | none => rw [hp] at h; simp at h
    | some pk =>
      rw [hp] at h
      simp only [Option.map_some', Option.some_bind] at h
      revert h
      split
      · split
        · intro h; exact absurd h (by simp)
        · split
          · intro h
            simp only [Option.some.injEq] at h
            rw [← h]
            simp only
            exact min_le_left _ _
          · intro h
            simp only [Option.some.injEq] at h
            rw [← h]
      · intro h
        simp only [Option.some.injEq] at h
        rw [← h]

theorem generate_fold_oldest_le (toPub : List Nat → Option (List Nat))
    (ct now : Nat) :
    ∀ (sks : List (List Nat))
      (acc out : List WalletRecord × ContainerState × Bool ×
        List (List Nat × List Nat)),
      List.foldlM (WalletContainerStorage.generate_new_addresses_step toPub ct
        now) acc sks = some out →
      out.2.1.oldest_timestamp ≤ acc.2.1.oldest_timestamp := by
  intro sks
  induction sks with
  | nil =>
    intro acc out h
    simp only [List.foldlM_nil, Option.pure_def, Option.some.injEq] at h
    rw [← h]
  | cons sk rest ih =>
    intro acc out h
    simp only [List.foldlM_cons, Option.bind_eq_bind] at h
    cases hstep : WalletContainerStorage.generate_new_addresses_step toPub ct
        now acc sk with
    | none => rw [hstep] at h; simp at h
    | some acc2 =>
      rw [hstep] at h
      simp only [Option.some_bind] at h
      exact le_trans (ih acc2 out h)
        (generate_step_oldest_le toPub ct now sk acc acc2 hstep)

/-- C2, counterexample: a concrete wallet state on net `"main"` with
`m_oldest_timestamp = 0` (unknown). `on_first_output_found` with `ts = 5`
strictly increases `m_oldest_timestamp`, contradicting the claim that no
operation ever increases it. -/
theorem c2_counterexample :
    st5.oldest_timestamp <
      (WalletContainerStorage.on_first_output_found st5 5).oldest_timestamp := by
  decide

/-- C2, amended: after a successful container load `m_oldest_timestamp` is
the minimum record creation timestamp (a lower bound that is attained);
container `generate_new_addresses` never increases it; and
`on_first_output_found` leaves it unchanged except in the first-output
pinning case (net `"main"`, oldest timestamp 0, `ts ≠ 0`), where it raises it
to `ts`. -/
theorem c2_oldest_timestamp :
    (∀ (cm : CryptoModel) (wk : List Nat) (net : String) (file : List Nat)
        (st : ContainerState),
      load_container_storage cm wk net file = .ok st →
      (∀ r ∈ st.wallet_records,
        st.oldest_timestamp ≤ r.creation_timestamp) ∧
      (st.wallet_records ≠ [] →
        ∃ r ∈ st.wallet_records,
          st.oldest_timestamp = r.creation_timestamp)) ∧
    (∀ (toPub : List Nat → Option (List Nat)) (sks : List (List Nat))
        (ct now : Nat) (st : ContainerState)
        (supply : List (List Nat × List Nat))
        (res : List WalletRecord) (st2 : ContainerState) (rescan : Bool),
      WalletContainerStorage.generate_new_addresses toPub sks ct now st
        supply = some (res, st2, rescan) →
      st2.oldest_timestamp ≤ st.oldest_timestamp) ∧
    (∀ (st : ContainerState) (ts : Nat),
      (st.net ≠ "main" →
        WalletContainerStorage.on_first_output_found st ts = st) ∧
      (ts = 0 ∨ st.oldest_timestamp ≠ 0 →
        WalletContainerStorage.on_first_output_found st ts = st) ∧
      (st.net = "main" → st.oldest_timestamp = 0 → ts ≠ 0 →
        (WalletContainerStorage.on_first_output_found st ts).oldest_timestamp
          = ts)) := by
  refine ⟨?_, ?_, ?_⟩
  · intro cm wk net file st h
    simp only [load_container_storage] at h
    split_ifs at h <;> try exact Except.noConfusion h
    constructor
    · intro r hr
      rcases loadLoop_ok_oldest_le_ct cm wk _ _ _ 0 false _ _ h r hr with
        hmem | hle
      · exact absurd hmem (by simp)
      · exact hle
    · intro hne
      rcases loadLoop_ok_oldest_attained cm wk _ _ _ 0 false _ _ h with
        heq | hex
      · simp only at heq
        rcases List.exists_mem_of_ne_nil _ hne with ⟨r0, hr0⟩
        refine ⟨r0, hr0, ?_⟩
        have h1 : st.oldest_timestamp ≤ r0.creation_timestamp := by
          rcases loadLoop_ok_oldest_le_ct cm wk _ _ _ 0 false _ _ h r0 hr0
            with hmem | hle
          · exact absurd hmem (by simp)
          · exact hle
        have h2 : r0.creation_timestamp ≤ TIMESTAMP_MAX := by
          rcases loadLoop_ok_ct_bound cm wk _ _ _ 0 false _ _ h r0 hr0 with
            hmem | hle
          · exact absurd hmem (by simp)
          · exact hle
        rw [heq] at h1 ⊢
        omega
      · exact hex
  · intro toPub sks ct now st supply res st2 rescan h
    simp only [WalletContainerStorage.generate_new_addresses] at h
    split_ifs at h <;>
      first
      | exact Option.noConfusion h
      | (cases hfold : List.foldlM
            (WalletContainerStorage.generate_new_addresses_step toPub ct now)
            ([], st, false, supply) sks with
         | none => rw [hfold] at h; simp at h
         | some out =>
           rw [hfold] at h
           simp only [Option.map_some', Option.some.injEq] at h
           have hle := generate_fold_oldest_le toPub ct now sks _ _ hfold
           have hst2 : st2 = out.2.1 := by
             have := congrArg (fun x => x.2.1) h
             exact this.symm
           rw [hst2]
           exact hle)
  · intro st ts
    refine ⟨?_, ?_, ?_⟩
    · intro hnet
      simp only [WalletContainerStorage.on_first_output_found, if_pos hnet]
    · intro hcase
      unfold WalletContainerStorage.on_first_output_found
      by_cases h1 : st.net ≠ "main"
      · rw [if_pos h1]
      · rw [if_neg h1, if_pos hcase]
    · intro hnet hold hts
      unfold WalletContainerStorage.on_first_output_found
      rw [if_neg (by simp [hnet]), if_neg (by simp [hts, hold])]

set_option maxRecDepth 8000 in
/-- C2, witness: the amended theorem applied to the concrete load of `file5`
(oldest timestamp 0, attained by its single record) and to a no-op
`on_first_output_found` call with `ts = 0`. -/
theorem c2_witness :
    ((∀ r ∈ st5.wallet_records,
        st5.oldest_timestamp ≤ r.creation_timestamp) ∧
      (st5.wallet_records ≠ [] →
        ∃ r ∈ st5.wallet_records,
          st5.oldest_timestamp = r.creation_timestamp)) ∧
    WalletContainerStorage.on_first_output_found st3 0 = st3 :=
  ⟨c2_oldest_timestamp.1 cm0 [] "main" file5 st5 (by decide),
    (c2_oldest_timestamp.2.2 st3 0).2.1 (Or.inl rfl)⟩

/-- The address variants (`boost::variant<AccountAddressSimple,
AccountAddressUnlinkable>`): `simple` carries spend and view public keys,
`unlinkable` carries the spend key image `s`, `s_v`, and the auditable
flag. -/
inductive AccountAddress where
  | simple (spend_public_key view_public_key : List Nat)
  | unlinkable (s sv : List Nat) (auditable : Bool)
deriving DecidableEq

/-- Model of `WalletContainerStorage::get_record` (lines 501-513): only
simple-variant addresses match; the spend key must be mapped, the view key
must be the wallet's own, and the mapped index must be below
`get_actual_records_count()` — which for the container backend is the full
records count (modelled from the spec §4.1, the accessor lives in the header
outside the given sources). `none` models returning `false` with the output
record untouched. -/
def WalletContainerStorage.get_record (st : ContainerState)
    (addr : AccountAddress) : Option WalletRecord :=
  match addr with
  | .unlinkable _ _ _ => none
  | .simple spk vpk =>
    match mapLookup st.records_map spk with
    | none => none
    | some i =>
      if st.view_public_key ≠ vpk then none
      else if st.wallet_records.length ≤ i then none
      else st.wallet_records.get? i

/-- Model of `Wallet::is_our_address`: true iff `get_record` succeeds. -/
def Wallet.is_our_address (st : ContainerState) (addr : AccountAddress) :
    Bool :=
  (WalletContainerStorage.get_record st addr).isSome

/-- C9: container `get_record` rejects non-simple variants and foreign view
keys without touching the output record, and `is_our_address` accepts exactly
the simple addresses carrying the wallet's own view public key with a mapped
spend public key. -/
theorem c9_get_record_filters (st : ContainerState) (addr : AccountAddress) :
    (∀ s sv b, addr = .unlinkable s sv b →
      WalletContainerStorage.get_record st addr = none) ∧
    (∀ spk vpk, addr = .simple spk vpk → vpk ≠ st.view_public_key →
      WalletContainerStorage.get_record st addr = none) ∧
    (Wallet.is_our_address st addr = true ↔
      ∃ spk i, addr = .simple spk st.view_public_key ∧
        mapLookup st.records_map spk = some i ∧
        i < st.wallet_records.length) := by
  refine ⟨?_, ?_, ?_⟩
  · intro s sv b habdr
    subst habdr
    rfl
  · intro spk vpk haddr hne
    subst haddr
    simp only [WalletContainerStorage.get_record]
    cases hm : mapLookup st.records_map spk with
    | none => rfl
    | some i =>
      simp only []
      rw [if_pos (fun he => hne he.symm)]
  · cases addr with
    | unlinkable s sv b =>
      simp only [Wallet.is_our_address, WalletContainerStorage.get_record,
        Option.isSome_none, Bool.false_eq_true, false_iff]
      rintro ⟨spk, i, haddr, -⟩
      exact AccountAddress.noConfusion haddr
    | simple spk vpk =>
      simp only [Wallet.is_our_address, WalletContainerStorage.get_record]
      cases hm : mapLookup st.records_map spk with
      | none =>
        simp only [Option.isSome_none, Bool.false_eq_true, false_iff]
        rintro ⟨spk2, i, haddr, hm2, -⟩
        obtain ⟨h1, h2⟩ := AccountAddress.simple.inj haddr
        subst h1
        rw [hm] at hm2
        exact Option.noConfusion hm2
      | some i =>
        simp only []
        by_cases hv : st.view_public_key ≠ vpk
        · rw [if_pos hv]
          simp only [Option.isSome_none, Bool.false_eq_true, false_iff]
          rintro ⟨spk2, j, haddr, -, -⟩
          obtain ⟨h1, h2⟩ := AccountAddress.simple.inj haddr
          exact hv h2.symm
        · rw [if_neg hv]
          rw [not_not] at hv
          by_cases hlen : st.wallet_records.length ≤ i
          · rw [if_pos hlen]
            simp only [Option.isSome_none, Bool.false_eq_true, false_iff]
            rintro ⟨spk2, j, haddr, hm2, hlt⟩
            obtain ⟨h1, h2⟩ := AccountAddress.simple.inj haddr
            subst h1
            rw [hm] at hm2
            obtain rfl : i = j := Option.some.inj hm2
            omega
          · rw [if_neg hlen]
            constructor
            · intro _
              exact ⟨spk, i, by rw [hv], hm, by omega⟩
            · intro _
              rw [Option.isSome_iff_exists]
              rcases List.get?_eq_get (show i < st.wallet_records.length by
                omega) with hg
              exact ⟨_, hg⟩

/-- C9, witness: the filter theorem applied at the concrete loaded state
`st5` and a concrete unlinkable-variant address. -/
theorem c9_witness :
    (∀ s sv b,
      AccountAddress.unlinkable zeroKey zeroKey false =
          .unlinkable s sv b →
        WalletContainerStorage.get_record st5
          (AccountAddress.unlinkable zeroKey zeroKey false) = none) ∧
    (∀ spk vpk,
      AccountAddress.unlinkable zeroKey zeroKey false = .simple spk vpk →
        vpk ≠ st5.view_public_key →
        WalletContainerStorage.get_record st5
          (AccountAddress.unlinkable zeroKey zeroKey false) = none) ∧
    (Wallet.is_our_address st5
        (AccountAddress.unlinkable zeroKey zeroKey false) = true ↔
      ∃ spk i,
        AccountAddress.unlinkable zeroKey zeroKey false =
            .simple spk st5.view_public_key ∧
          mapLookup st5.records_map spk = some i ∧
          i < st5.wallet_records.length) :=
  c9_get_record_filters st5 (AccountAddress.unlinkable zeroKey zeroKey false)

/-- The HD look-ahead window size (`GENERATE_AHEAD`). -/
def GENERATE_AHEAD : Nat := 20000

/-- The HD parameter key `ADDRESS_COUNT_PREFIX`. -/
def ADDRESS_COUNT_KEY : String := "total_address_count"

/-- In-memory plus database state of a `WalletHD` object. The `parameters`
table is modelled by its logical contents (each row is stored key-hashed and
encrypted on disk; the hashing and encryption are bijective per wallet key,
so the logical view determines the table). `payment_queue` rows are
`(tid_hash, net_hash, row_data)` with the primary key `(tid_hash, net_hash)`
as in the schema. `commits` counts `commit_txn` calls (each `commit()`
commits the open transaction and begins a new one). -/
structure HDState where
  used_address_count : Nat
  wallet_records : List WalletRecord
  records_map : List (List Nat × Nat)
  parameters : List (String × List Nat)
  payment_queue : List (List Nat × List Nat × List Nat)
  commits : Nat
  net : String
  wallet_key : List Nat
deriving DecidableEq, Inhabited

/-- Stand-in for `seria::to_binary` on the `size_t` address count (the exact
wire format lives in the `seria` layer outside the given sources; nothing
below depends on it beyond being a function of `n`). -/
def to_binary (n : Nat) : List Nat := uintLeToBytes 8 n

/-- `REPLACE INTO parameters` keyed by the (hashed) key: drop any old row for
`k`, add the new one. -/
def parameterPut (ps : List (String × List Nat)) (k : String)
    (v : List Nat) : List (String × List Nat) :=
  ps.filter (fun p => p.1 != k) ++ [(k, v)]

/-- The deterministic record at HD derivation index `i`:
`generate_hd_spendkeys` output (a pure function of the spend key base and
view seed, abstracted as `gen`) with `creation_timestamp = TIMESTAMP_MAX` so
look-ahead records never trigger rescans (`generate_ahead1`). `gen i` is the
`(public, secret)` pair. -/
def generate_hd_record (gen : Nat → List Nat × List Nat) (i : Nat) :
    WalletRecord :=
  { spend_public_key := (gen i).1
    spend_secret_key := (gen i).2
    creation_timestamp := TIMESTAMP_MAX }

/-- Model of `WalletHD::generate_ahead`: if fewer than
`m_used_address_count + GENERATE_AHEAD` records are materialized, extend the
vector to that size with deterministic records and insert them into the map.
The multi-threaded branch (`delta ≥ 1000`) fills the same disjoint index
ranges and is joined before returning, so it computes the same list.
`generate_ahead_step` materializes one record and inserts it into the map. -/
def WalletHD.generate_ahead_step (gen : Nat → List Nat × List Nat)
    (s : HDState) : HDState :=
  let r := generate_hd_record gen s.wallet_records.length
  { s with
    records_map := mapInsert s.records_map r.spend_public_key
      s.wallet_records.length
    wallet_records := s.wallet_records ++ [r] }

def WalletHD.generate_ahead (gen : Nat → List Nat × List Nat) (st : HDState) :
    HDState :=
  if st.used_address_count + GENERATE_AHEAD ≤ st.wallet_records.length then st
  else
    (List.range (st.used_address_count + GENERATE_AHEAD -
      st.wallet_records.length)).foldl
      (fun s _ => WalletHD.generate_ahead_step gen s) st

/-- Model of `WalletHD::generate_new_addresses` (lines 1035-1051): throws
(`none`, leaving the state untouched) if any input secret is nonzero; returns
immediately on an empty input; otherwise bumps `m_used_address_count`,
refills the look-ahead window, returns the records at indices
`was_used .. was_used + len - 1` (in range, so `getD` equals the C++ `.at`),
rewrites the `total_address_count` parameter and commits. The
`*rescan_from_ct` flag is passed through untouched: the function never writes
it. -/
def WalletHD.generate_new_addresses (gen : Nat → List Nat × List Nat)
    (sks : List (List Nat)) (ct now : Nat) (rescan : Bool) (st : HDState) :
    Option (List WalletRecord × HDState × Bool) :=
  if sks.any (fun sk => sk != zeroKey) then none
  else if sks.isEmpty then some ([], st, rescan)
  else
    let wasUsed := st.used_address_count
    let st2 := WalletHD.generate_ahead gen
      { st with used_address_count := st.used_address_count + sks.length }
    let result := (List.range sks.length).map (fun i =>
      st2.wallet_records.getD (wasUsed + i) default)
    some (result,
      { st2 with
        parameters := parameterPut st2.parameters ADDRESS_COUNT_KEY
          (to_binary st2.used_address_count)
        commits := st2.commits + 1 },
      rescan)

theorem generate_ahead_foldl_frame (gen : Nat → List Nat × List Nat) :
    ∀ (l : List Nat) (s : HDState),
      (l.foldl (fun s _ => WalletHD.generate_ahead_step gen s)
          s).used_address_count = s.used_address_count ∧
      (l.foldl (fun s _ => WalletHD.generate_ahead_step gen s)
          s).parameters = s.parameters ∧
      (l.foldl (fun s _ => WalletHD.generate_ahead_step gen s)
          s).payment_queue = s.payment_queue ∧
      (l.foldl (fun s _ => WalletHD.generate_ahead_step gen s)
          s).commits = s.commits := by
  intro l
  induction l with
  | nil => intro s; exact ⟨rfl, rfl, rfl, rfl⟩
  | cons a rest ih =>
    intro s
    simp only [List.foldl_cons]
    exact ih (WalletHD.generate_ahead_step gen s)

theorem generate_ahead_foldl_length (gen : Nat → List Nat × List Nat) :
    ∀ (l : List Nat) (s : HDState),
      (l.foldl (fun s _ => WalletHD.generate_ahead_step gen s)
          s).wallet_records.length = s.wallet_records.length + l.length := by
  intro l
  induction l with
  | nil => intro s; rfl
  | cons a rest ih =>
    intro s
    simp only [List.foldl_cons, List.length_cons]
    rw [ih (WalletHD.generate_ahead_step gen s)]
    simp only [WalletHD.generate_ahead_step, List.length_append,
      List.length_cons, List.length_nil]
    omega

theorem generate_ahead_frame (gen : Nat → List Nat × List Nat)
    (st : HDState) :
    (WalletHD.generate_ahead gen st).used_address_count =
        st.used_address_count ∧
      (WalletHD.generate_ahead gen st).parameters = st.parameters ∧
      (WalletHD.generate_ahead gen st).payment_queue = st.payment_queue ∧
      (WalletHD.generate_ahead gen st).commits = st.commits := by
  unfold WalletHD.generate_ahead
  split_ifs
  · exact ⟨rfl, rfl, rfl, rfl⟩
  · exact generate_ahead_foldl_frame gen _ st

theorem generate_ahead_length (gen : Nat → List Nat × List Nat)
    (st : HDState) :
    (WalletHD.generate_ahead gen st).wallet_records.length =
      max st.wallet_records.length
        (st.used_address_count + GENERATE_AHEAD) := by
  unfold WalletHD.generate_ahead
  split_ifs with hge
  · omega
  · rw [generate_ahead_foldl_length gen _ st, List.length_range]
    omega

theorem map_getD_eq_drop_take (l : List WalletRecord) (w n : Nat)
    (h : w + n ≤ l.length) :
    (List.range n).map (fun i => l.getD (w + i) default) =
      (l.drop w).take n := by
  apply List.ext_getElem
  · simp only [List.length_map, List.length_range, List.length_take,
      List.length_drop]
    omega
  · intro i h1 h2
    simp only [List.length_map, List.length_range] at h1
    rw [List.getElem_map, List.getElem_range, List.getElem_take,
      List.getElem_drop, List.getD_eq_getElem?_getD,
      List.getElem?_eq_getElem (by omega)]
    rfl

/-- A concrete empty HD wallet state. -/
def hdSt0 : HDState :=
  { used_address_count := 0
    wallet_records := []
    records_map := []
    parameters := []
    payment_queue := []
    commits := 0
    net := "main"
    wallet_key := [] }

/-- Trivial deterministic HD key generator. -/
def gen0 : Nat → List Nat × List Nat := fun _ => (zeroKey, zeroKey)

/-- C4, counterexample: with an empty input list, HD
`generate_new_addresses` succeeds but returns before the parameter write and
the commit, so the post-state commit count is not incremented — the claim
says the call commits. -/
theorem c4_counterexample :
    ∃ res st2 rescan,
      WalletHD.generate_new_addresses gen0 [] 0 0 false hdSt0 =
          some (res, st2, rescan) ∧
        st2.commits ≠ hdSt0.commits + 1 :=
  ⟨[], hdSt0, false, rfl, by decide⟩

/-- C4, amended: HD `generate_new_addresses` throws on any nonzero input
secret, leaving the state unchanged; on a nonempty all-zero input it returns
the look-ahead records at indices `m_used_address_count ..
m_used_address_count + len - 1` in order, bumps `m_used_address_count` by
`len`, commits, and passes `*rescan_from_ct` through untouched. An empty
input returns immediately without writing or committing (see C10). -/
theorem c4_hd_generate (gen : Nat → List Nat × List Nat)
    (sks : List (List Nat)) (ct now : Nat) (rescan : Bool) (st : HDState) :
    ((∃ sk ∈ sks, sk ≠ zeroKey) →
      WalletHD.generate_new_addresses gen sks ct now rescan st = none) ∧
    ((∀ sk ∈ sks, sk = zeroKey) → sks ≠ [] →
      ∃ res st2,
        WalletHD.generate_new_addresses gen sks ct now rescan st =
            some (res, st2, rescan) ∧
          st2.used_address_count = st.used_address_count + sks.length ∧
          st2.commits = st.commits + 1 ∧
          res = (st2.wallet_records.drop st.used_address_count).take
            sks.length ∧
          res.length = sks.length) := by
  constructor
  · rintro ⟨sk, hmem, hne⟩
    have hany : sks.any (fun sk => sk != zeroKey) = true :=
      List.any_eq_true.mpr ⟨sk, hmem, bne_iff_ne.mpr hne⟩
    unfold WalletHD.generate_new_addresses
    rw [if_pos hany]
  · intro hall hne
    have hany : ¬sks.any (fun sk => sk != zeroKey) = true := by
      rw [Bool.not_eq_true, List.any_eq_false]
      intro x hx
      simp [hall x hx]
    have hempty : ¬sks.isEmpty = true := by
      cases sks with
      | nil => exact absurd rfl hne
      | cons a l => simp [List.isEmpty]
    obtain ⟨hu, hp, hq, hc⟩ := generate_ahead_frame gen
      { st with used_address_count := st.used_address_count + sks.length }
    have hlen := generate_ahead_length gen
      { st with used_address_count := st.used_address_count + sks.length }
    have hu1 : ({ st with used_address_count :=
        st.used_address_count + sks.length } : HDState).used_address_count =
        st.used_address_count + sks.length := rfl
    rw [hu1] at hu hlen
    set st1 : HDState :=
      { st with used_address_count := st.used_address_count + sks.length }
      with hst1
    set st2 : HDState := WalletHD.generate_ahead gen st1 with hst2
    refine ⟨(List.range sks.length).map (fun i =>
        st2.wallet_records.getD (st.used_address_count + i) default),
      { st2 with
        parameters := parameterPut st2.parameters ADDRESS_COUNT_KEY
          (to_binary st2.used_address_count)
        commits := st2.commits + 1 }, ?_, ?_, ?_, ?_, ?_⟩
    · unfold WalletHD.generate_new_addresses
      rw [if_neg hany, if_neg hempty]
    · simpa using hu
    · simpa using hc
    · simp only []
      have hge : st.used_address_count + sks.length + GENERATE_AHEAD ≤
          st2.wallet_records.length := by
        rw [hlen]
        exact le_max_right _ _
      exact map_getD_eq_drop_take _ _ _ (by omega)
    · simp

/-- C4, witness: the amended theorem's success branch applied at a concrete
single-zero-key input on the empty HD state. -/
theorem c4_witness :
    ∃ res st2,
      WalletHD.generate_new_addresses gen0 [zeroKey] 0 0 false hdSt0 =
          some (res, st2, false) ∧
        st2.used_address_count = hdSt0.used_address_count + [zeroKey].length ∧
        st2.commits = hdSt0.commits + 1 ∧
        res = (st2.wallet_records.drop hdSt0.used_address_count).take
          [zeroKey].length ∧
        res.length = [zeroKey].length :=
  (c4_hd_generate gen0 [zeroKey] 0 0 false hdSt0).2 (by decide) (by decide)

/-- C10: HD `generate_new_addresses` with an empty input list returns an
empty vector and leaves everything — `m_used_address_count`, the records
vector, the records map, the parameters table, the payment queue, and the
commit count — exactly as before: the function returns before any mutation,
parameter write, or commit. -/
theorem c10_hd_generate_empty (gen : Nat → List Nat × List Nat) (ct now : Nat)
    (rescan : Bool) (st : HDState) :
    WalletHD.generate_new_addresses gen [] ct now rescan st =
      some ([], st, rescan) := rfl

/-- Model of the static `derive_from_key(key, append)`:
`cn_fast_hash(key ‖ append ‖ key)` (the constructor copies the key, then the
append string, then `common::append` adds the key bytes again). `cnHash`
stands for `crypto::cn_fast_hash`. -/
def derive_from_key (cnHash : List Nat → List Nat) (key append : List Nat) :
    List Nat :=
  cnHash (key ++ append ++ key)

/-- Bytes of a string (`common::as_binary_array` / `std::string` bytes). -/
def strBytes (s : String) : List Nat := s.data.map Char.toNat

/-- The payment-queue hashed-PK namespaces. -/
def PAYMENT_QUEUE_TID_KEY : String := "db_payment_queue_tid"

/-- The net-column namespace of the payment-queue hashed PK. -/
def PAYMENT_QUEUE_NET_KEY : String := "db_payment_queue_net"

/-- Model of `WalletHD::payment_queue_remove(tid)` (lines 1238-1251): delete
the row keyed by the hashes of `(tid, current net)` from `payment_queue`,
then commit the enclosing transaction only when the first byte of `tid` is
the character `'x'`. -/
def WalletHD.payment_queue_remove (cnHash : List Nat → List Nat)
    (st : HDState) (tid : List Nat) : HDState :=
  let tidHash := derive_from_key cnHash st.wallet_key
    (strBytes PAYMENT_QUEUE_TID_KEY ++ tid)
  let netHash := derive_from_key cnHash st.wallet_key
    (strBytes PAYMENT_QUEUE_NET_KEY ++ strBytes st.net)
  let st2 := { st with
    payment_queue := st.payment_queue.filter (fun row =>
      !(row.2.1 == netHash && row.1 == tidHash)) }
  if tid.headD 0 = Char.toNat 'x' then { st2 with commits := st2.commits + 1 }
  else st2

/-- C8: `payment_queue_remove` always deletes the row for `(tid, current
net)` — a row survives iff it was present and its key is not the hashed
`(tid, net)` pair — and commits the open transaction exactly when the first
byte of `tid` is `'x'`; for any other `tid` the commit count is unchanged and
the deletion stays pending. -/
theorem c8_payment_queue_remove (cnHash : List Nat → List Nat) (st : HDState)
    (tid : List Nat) :
    (∀ row, row ∈ (WalletHD.payment_queue_remove cnHash st tid).payment_queue
        ↔
      row ∈ st.payment_queue ∧
        ¬(row.2.1 = derive_from_key cnHash st.wallet_key
            (strBytes PAYMENT_QUEUE_NET_KEY ++ strBytes st.net) ∧
          row.1 = derive_from_key cnHash st.wallet_key
            (strBytes PAYMENT_QUEUE_TID_KEY ++ tid))) ∧
    (tid.headD 0 = Char.toNat 'x' →
      (WalletHD.payment_queue_remove cnHash st tid).commits =
        st.commits + 1) ∧
    (tid.headD 0 ≠ Char.toNat 'x' →
      (WalletHD.payment_queue_remove cnHash st tid).commits = st.commits) := by
  refine ⟨?_, ?_, ?_⟩
  · intro row
    unfold WalletHD.payment_queue_remove
    split_ifs <;>
      · simp only [List.mem_filter, Bool.not_eq_true', Bool.and_eq_false_iff,
          beq_eq_false_iff_ne, ne_eq, Bool.not_eq_true, Bool.and_eq_true,
          beq_iff_eq]
        tauto
  · intro hx
    unfold WalletHD.payment_queue_remove
    rw [if_pos hx]
  · intro hx
    unfold WalletHD.payment_queue_remove
    rw [if_neg hx]

/-- Identity stand-in for `cn_fast_hash` in concrete evaluations. -/
def cnHash0 : List Nat → List Nat := fun l => l

/-- A concrete 32-byte transaction id starting with the byte `'x'`. -/
def tid8 : List Nat := 120 :: List.replicate 31 0

/-- A concrete HD state with one payment-queue row. -/
def st8 : HDState :=
  { hdSt0 with payment_queue := [([1], [2], [3])], wallet_key := [9] }

/-- C8, witness: the removal/commit theorem applied at a concrete state and a
tid whose first byte is `'x'`. -/
theorem c8_witness :
    (∀ row,
      row ∈ (WalletHD.payment_queue_remove cnHash0 st8 tid8).payment_queue ↔
        row ∈ st8.payment_queue ∧
          ¬(row.2.1 = derive_from_key cnHash0 st8.wallet_key
              (strBytes PAYMENT_QUEUE_NET_KEY ++ strBytes st8.net) ∧
            row.1 = derive_from_key cnHash0 st8.wallet_key
              (strBytes PAYMENT_QUEUE_TID_KEY ++ tid8))) ∧
    (tid8.headD 0 = Char.toNat 'x' →
      (WalletHD.payment_queue_remove cnHash0 st8 tid8).commits =
        st8.commits + 1) ∧
    (tid8.headD 0 ≠ Char.toNat 'x' →
      (WalletHD.payment_queue_remove cnHash0 st8 tid8).commits =
        st8.commits) :=
  c8_payment_queue_remove cnHash0 st8 tid8

/-- Modelled from the spec: `common::BITS_PER_WORD` for the 2048-word BIP-39
English list (11 bits per word); `common/Words.hpp` is not under the given
sources. -/
def BITS_PER_WORD : Nat := 11

/-- Modelled from the spec: the word-list environment of
`WalletHD::generate_mnemonic`. `words` is the BIP-39 English list (the
`word_ptrs` table delimits the words, so lengths are pointer differences),
`adj` is `word_crc32_adj`, `stepZero` / `revStep` are `crc32_step_zero` /
`crc32_reverse_step_zero` (one zero-byte CRC32 advance and its inverse), and
`minLen` / `maxLen` are `WORDS_MIN_LEN` / `WORDS_MAX_LEN`. All of these live
in `common/Words.hpp` / `common/CRC32.hpp`, outside the given sources. -/
structure MnemonicEnv where
  words : List String
  adj : Nat → Nat
  stepZero : Nat → Nat
  revStep : Nat → Nat
  minLen : Nat
  maxLen : Nat

/-- `WORDS_COUNT`. -/
def MnemonicEnv.count (e : MnemonicEnv) : Nat := e.words.length

/-- The length of word `i` (a `word_ptrs` pointer difference). -/
def MnemonicEnv.wlen (e : MnemonicEnv) (i : Nat) : Nat :=
  (e.words.getD i default).length

/-- Advancing the running CRC32 over one word: `len` zero-padded steps
followed by XOR with the word's `word_crc32_adj` entry — the shared pattern
of the prefix sampling and the inner enumeration loops. -/
def MnemonicEnv.stepWord (e : MnemonicEnv) (c w : Nat) : Nat :=
  (e.stepZero^[e.wlen w] c) ^^^ e.adj w

/-- Modelled from the spec: the CRC32 of a phrase over its concatenated
zero-padded word-length encoding — fold `stepWord` over the word indices
starting from 0. This is the invariant the suffix search targets. -/
def phrase_crc32 (e : MnemonicEnv) (ws : List Nat) : Nat :=
  ws.foldl e.stepWord 0

/-- The key under which word `i` is stored in the `last_word` map: CRC32 run
backwards through the word from the target `version`. -/
def MnemonicEnv.lastWordKey (e : MnemonicEnv) (version i : Nat) : Nat :=
  e.revStep^[e.wlen i] (version ^^^ e.adj i)

/-- Lookup in the `last_word` map: `operator[]` overwrites, so the map sends
a key to the largest word index with that key — the first hit over the
reversed index range. -/
def MnemonicEnv.lastWordLookup (e : MnemonicEnv) (version k : Nat) :
    Option Nat :=
  (List.range e.count).reverse.find? (fun i =>
    e.lastWordKey version i == k)

/-- The `words_bylen`-bucketed enumeration order of the penultimate /
antepenultimate word loops: all words of length `minLen`, then `minLen + 1`,
…, up to `maxLen`. -/
def MnemonicEnv.bucketed (e : MnemonicEnv) : List Nat :=
  (List.range (e.maxLen - e.minLen + 1)).flatMap (fun l =>
    (List.range e.count).filter (fun w => e.wlen w == e.minLen + l))

/-- The inner double loop of `generate_mnemonic`: enumerate candidate
penultimate and antepenultimate words in bucketed order, advancing the
running CRC32, and probe the `last_word` map for a final word completing the
phrase to the target version. -/
def MnemonicEnv.findPair (e : MnemonicEnv) (version c : Nat) :
    Option (Nat × Nat × Nat) :=
  e.bucketed.findSome? (fun w1 =>
    e.bucketed.findSome? (fun w2 =>
      (e.lastWordLookup version (e.stepWord (e.stepWord c w1) w2)).map
        (fun w3 => (w1, w2, w3))))

/-- `words_in_prefix = (bits - 1) / BITS_PER_WORD + 1` (for `bits ≥ 1` this
is `⌈bits / BITS_PER_WORD⌉`; `bits = 0` would wrap the `size_t` subtraction
in C++ and never return). -/
def words_in_pre (bits : Nat) : Nat := (bits - 1) / BITS_PER_WORD + 1

/-- The outer `while (true)` resampling loop of `generate_mnemonic`, with
explicit fuel and a random stream `rnd` (`crypto::rand<size_t>() %
WORDS_COUNT` per prefix word, consumed sequentially across attempts). On a
map hit the word-index list of the full phrase is returned. -/
def generate_mnemonic_ids (e : MnemonicEnv) (rnd : Nat → Nat)
    (bits version : Nat) : Nat → Nat → Option (List Nat)
  | 0, _ => none
  | fuel + 1, attempt =>
    let n := words_in_pre bits
    let ids := (List.range n).map (fun t => rnd (attempt * n + t) % e.count)
    match e.findPair version (ids.foldl e.stepWord 0) with
    | some (w1, w2, w3) => some (ids ++ [w1, w2, w3])
    | none => generate_mnemonic_ids e rnd bits version fuel (attempt + 1)

/-- A single space. -/
def spaceStr : String := " "

/-- The phrase built from word indices: the words joined by single spaces
(the result loop appends each word's characters with `' '` separators). -/
def renderPhrase (e : MnemonicEnv) (ws : List Nat) : String :=
  String.intercalate spaceStr (ws.map (fun i => e.words.getD i default))

/-- Model of `WalletHD::generate_mnemonic(bits, version)`: the returned
display phrase, `none` when the fuel runs out before a suffix is found. -/
def generate_mnemonic (e : MnemonicEnv) (rnd : Nat → Nat)
    (bits version fuel : Nat) : Option String :=
  (generate_mnemonic_ids e rnd bits version fuel 0).map (renderPhrase e)

theorem iterate_leftInverse (f g : Nat → Nat) (h : ∀ x, f (g x) = x) :
    ∀ (n x : Nat), f^[n] (g^[n] x) = x := by
  intro n
  induction n with
  | zero => intro x; rfl
  | succ m ih =>
    intro x
    rw [Function.iterate_succ_apply, Function.iterate_succ_apply', h, ih]

theorem bucketed_lt (e : MnemonicEnv) (w : Nat) (h : w ∈ e.bucketed) :
    w < e.count := by
  rcases List.mem_flatMap.mp h with ⟨l, -, hw⟩
  exact List.mem_range.mp (List.mem_filter.mp hw).1

theorem lastWordLookup_sound (e : MnemonicEnv) (version k w3 : Nat)
    (h : e.lastWordLookup version k = some w3) :
    w3 < e.count ∧ e.lastWordKey version w3 = k := by
  unfold MnemonicEnv.lastWordLookup at h
  constructor
  · have hmem := List.mem_of_find?_eq_some h
    rw [List.mem_reverse] at hmem
    exact List.mem_range.mp hmem
  · have hp := List.find?_some h
    exact beq_iff_eq.mp hp

theorem findPair_sound (e : MnemonicEnv)
    (hinv : ∀ x, e.stepZero (e.revStep x) = x) (version c w1 w2 w3 : Nat)
    (h : e.findPair version c = some (w1, w2, w3)) :
    w1 < e.count ∧ w2 < e.count ∧ w3 < e.count ∧
      e.stepWord (e.stepWord (e.stepWord c w1) w2) w3 = version := by
  unfold MnemonicEnv.findPair at h
  rcases List.exists_of_findSome?_eq_some h with ⟨a1, ha1, h1⟩
  rcases List.exists_of_findSome?_eq_some h1 with ⟨a2, ha2, h2⟩
  rcases Option.map_eq_some'.mp h2 with ⟨w3x, hlk, heq⟩
  obtain ⟨e1, e2, e3⟩ : a1 = w1 ∧ a2 = w2 ∧ w3x = w3 := by
    simpa [Prod.ext_iff] using heq
  subst e1; subst e2; subst e3
  obtain ⟨hw3, hkey⟩ := lastWordLookup_sound e version _ _ hlk
  refine ⟨bucketed_lt e _ ha1, bucketed_lt e _ ha2, hw3, ?_⟩
  rw [← hkey]
  unfold MnemonicEnv.stepWord MnemonicEnv.lastWordKey
  rw [iterate_leftInverse e.stepZero e.revStep hinv]
  exact Nat.xor_cancel_right _ _

theorem generate_mnemonic_ids_sound (e : MnemonicEnv) (rnd : Nat → Nat)
    (bits version : Nat) (hcount : 0 < e.count)
    (hinv : ∀ x, e.stepZero (e.revStep x) = x) :
    ∀ (fuel attempt : Nat) (ws : List Nat),
      generate_mnemonic_ids e rnd bits version fuel attempt = some ws →
      ws.length = words_in_pre bits + 3 ∧ (∀ w ∈ ws, w < e.count) ∧
        phrase_crc32 e ws = version := by
  intro fuel
  induction fuel with
  | zero => intro attempt ws h; exact Option.noConfusion h
  | succ m ih =>
    intro attempt ws h
    simp only [generate_mnemonic_ids] at h
    cases hfp : e.findPair version
        (((List.range (words_in_pre bits)).map (fun t =>
          rnd (attempt * words_in_pre bits + t) % e.count)).foldl
          e.stepWord 0) with
    | none =>
      rw [hfp] at h
      exact ih (attempt + 1) ws h
    | some tri =>
      obtain ⟨w1, w2, w3⟩ := tri
      rw [hfp] at h
      obtain rfl := Option.some.inj h
      obtain ⟨h1, h2, h3, hcrc⟩ :=
        findPair_sound e hinv version _ w1 w2 w3 hfp
      refine ⟨?_, ?_, ?_⟩
      · simp
      · intro w hw
        rcases List.mem_append.mp hw with hmem | hmem
        · rcases List.mem_map.mp hmem with ⟨t, -, rfl⟩
          exact Nat.mod_lt _ hcount
        · simp only [List.mem_cons, List.not_mem_nil, or_false] at hmem
          rcases hmem with rfl | rfl | rfl
          · exact h1
          · exact h2
          · exact h3
      · unfold phrase_crc32
        rw [List.foldl_append]
        simpa using hcrc

/-- C6: whenever `generate_mnemonic(bits, version)` returns (for any word
table, CRC step functions with `crc32_step_zero ∘ crc32_reverse_step_zero =
id`, nonempty word list, randomness, and `bits ≥ 1`), the result is the
space-separated join of exactly `words_in_prefix + 3` indices into the word
list, where `words_in_prefix = ⌈bits / BITS_PER_WORD⌉`, and the CRC32 of the
phrase over its concatenated zero-padded word-length encoding equals
`version`. -/
theorem c6_mnemonic_phrase (e : MnemonicEnv) (rnd : Nat → Nat)
    (bits version fuel : Nat) (s : String) (hcount : 0 < e.count)
    (hbits : 1 ≤ bits) (hinv : ∀ x, e.stepZero (e.revStep x) = x)
    (hgen : generate_mnemonic e rnd bits version fuel = some s) :
    ∃ ws : List Nat,
      s = renderPhrase e ws ∧
      ws.length = words_in_pre bits + 3 ∧
      words_in_pre bits = (bits + BITS_PER_WORD - 1) / BITS_PER_WORD ∧
      (∀ w ∈ ws, w < e.count) ∧
      phrase_crc32 e ws = version := by
  rcases Option.map_eq_some'.mp hgen with ⟨ws, hids, rfl⟩
  obtain ⟨hl, hm, hc⟩ :=
    generate_mnemonic_ids_sound e rnd bits version hcount hinv fuel 0 ws hids
  refine ⟨ws, rfl, hl, ?_, hm, hc⟩
  unfold words_in_pre
  have hsh : bits - 1 + BITS_PER_WORD = bits + BITS_PER_WORD - 1 := by omega
  rw [← hsh, Nat.add_div_right _ (by norm_num [BITS_PER_WORD])]

/-- A concrete word. -/
def word0 : String := "abandon"

/-- A concrete one-word environment with identity CRC steps. -/
def mEnv0 : MnemonicEnv :=
  { words := [word0]
    adj := fun _ => 0
    stepZero := fun x => x
    revStep := fun x => x
    minLen := 7
    maxLen := 7 }

/-- A constant randomness stream. -/
def rnd0 : Nat → Nat := fun _ => 0

/-- The phrase produced by `generate_mnemonic` on the concrete environment. -/
def mnem0 : String := "abandon abandon abandon abandon"

/-- C6, witness: the phrase theorem applied to a concrete successful
generation (`bits = 1`, `version = 0`, one attempt). -/
theorem c6_witness :
    ∃ ws : List Nat,
      mnem0 = renderPhrase mEnv0 ws ∧
      ws.length = words_in_pre 1 + 3 ∧
      words_in_pre 1 = (1 + BITS_PER_WORD - 1) / BITS_PER_WORD ∧
      (∀ w ∈ ws, w < mEnv0.count) ∧
      phrase_crc32 mEnv0 ws = 0 :=
  c6_mnemonic_phrase mEnv0 rnd0 1 0 1 mnem0 (by decide) (by decide)
    (fun x => rfl) (by decide)
